import Mathlib

/-!
Verification of the transcript review codec, catalog and configuration
accessors of the Transcription repository (src/main.py, src/transcription.py,
src/config_manager.py, src/formatter.py).

Python strings are modelled as lists of characters (`Str`); floating point
timing and confidence values are modelled as exact rationals; JSON dicts
become structures whose optional fields model `dict.get` defaults, with an
`extra` association list standing for any further keys a dict may carry.
-/

/-- Python strings, modelled as lists of code points. -/
abbrev Str := List Char

/-- Whitespace test for the characters this codec ever strips; models
Python `str.strip` behaviour on the data handled here. -/
def isWs (c : Char) : Bool := c = ' ' || c = '\n' || c = '\t' || c = '\r'

/-- Python `str.lstrip()`. -/
def lstrip (s : Str) : Str := s.dropWhile isWs

/-- Python `str.rstrip()`. -/
def rstrip (s : Str) : Str := (s.reverse.dropWhile isWs).reverse

/-- Python `str.strip()`. -/
def strip (s : Str) : Str := lstrip (rstrip s)

/-- Python `s.split("\n\n")`: split on every non-overlapping occurrence of
the two-newline separator, scanning from the left, keeping empty pieces. -/
def splitOnNlNl : Str → List Str
  | [] => [[]]
  | '\n' :: '\n' :: rest => [] :: splitOnNlNl rest
  | c :: rest =>
    match splitOnNlNl rest with
    | [] => [[c]]
    | b :: bs => (c :: b) :: bs

/-- Decimal digits of a natural number, as Python `str` renders the
magnitude of an integer (base-10 `Nat.toDigits`). -/
def natDigits (n : ℕ) : Str := Nat.toDigits 10 n

/-- Python `str(m)` for an integer. -/
def intStr (m : ℤ) : Str := if m < 0 then '-' :: natDigits m.natAbs else natDigits m.natAbs

/-- Python `f"{m:02d}"`: decimal rendering zero-padded to width two. -/
def pad2 (m : ℤ) : Str := if 0 ≤ m ∧ m < 10 then '0' :: intStr m else intStr m

/-- Python `a // b` on floats (floor division), over exact rationals. -/
def pyFloorDiv (a b : ℚ) : ℚ := (⌊a / b⌋ : ℚ)

/-- Python `a % b` on floats (`a - b * (a // b)`), over exact rationals. -/
def pyMod (a b : ℚ) : ℚ := a - b * (⌊a / b⌋ : ℚ)

/-- Python `int(q)`: truncation toward zero. -/
def pyInt (q : ℚ) : ℤ := if 0 ≤ q then ⌊q⌋ else -⌊-q⌋

/-- The `MM:SS` content of the timestamp rendered by main.py lines 505-507
(identically by formatter.py lines 98-100): `minutes = int(start // 60)`,
`seconds = int(start % 60)`, each formatted `02d`. -/
def tsContent (start : ℚ) : Str :=
  pad2 (pyInt (pyFloorDiv start 60)) ++ ':' :: pad2 (pyInt (pyMod start 60))

/-- main.py line 507: `timestamp = f"[{minutes:02d}:{seconds:02d}]"`. -/
def formatTimestamp (start : ℚ) : Str := '[' :: tsContent start ++ [']']

/-- One segment dict of a Transcript Record. Optional fields model the
`dict.get` defaults the source applies; `stop` models the JSON key `end`
(a Lean keyword); `extra` models any remaining keys, preserved by
`dict.copy` in the decode path. -/
structure Segment where
  start : Option ℚ
  stop : Option ℚ
  text : Option Str
  speaker : Option Str
  confidence : Option ℚ
  extra : List (String × String)
deriving DecidableEq

/-- A Transcript Record JSON object, as read and written by the review
stage. `extra` models any top-level keys beyond the four named ones. -/
structure Record where
  project_name : Option Str
  timestamp : Option Str
  full_transcript : Str
  segments : List Segment
  extra : List (String × String)
deriving DecidableEq

/-- main.py lines 499-517, per segment: the three inserts
`f"{timestamp} "`, `f"[{speaker}] "` and the text, concatenated. -/
def bodyOf (seg : Segment) : Str :=
  formatTimestamp (seg.start.getD 0) ++
    ' ' :: '[' :: (seg.speaker.getD ("Speaker".toList)) ++
    ']' :: ' ' :: (seg.text.getD [])

/-- main.py lines 499-523, per segment: the three inserts followed by the
`"\n\n"` block separator. -/
def encodeSegment (seg : Segment) : Str := bodyOf seg ++ ['\n', '\n']

/-- main.py lines 501 and 520-521: `confidence = segment.get("confidence", 100)`
and the `low_confidence` tag is added iff `confidence < threshold`. -/
def low_confidence (seg : Segment) (threshold : ℤ) : Bool :=
  decide (seg.confidence.getD 100 < (threshold : ℚ))

/-- main.py lines 494-523: loading a record for review produces the widget
text and the per-segment low-confidence flags. Tk tags colour character
ranges but insert no characters, so the text does not depend on the
threshold. -/
def load_transcript_for_review (threshold : ℤ) (r : Record) : Str × List Bool :=
  ((r.segments.map encodeSegment).flatten,
   r.segments.map (fun s => low_confidence s threshold))

/-- main.py lines 548-555: bracket parse of one (already stripped) block.
If the block starts with `[` and contains `]`, the speaker is the text
between position 1 and the first `]` and the text is the stripped
remainder; otherwise the speaker defaults and the whole block is the text. -/
def parseBlock (line : Str) : Str × Str :=
  if line.head? = some '[' ∧ ']' ∈ line then
    ((line.takeWhile (fun c => c ≠ ']')).drop 1,
     strip ((line.dropWhile (fun c => c ≠ ']')).drop 1))
  else ("Speaker".toList, line)

/-- main.py lines 557-568: build one segment from a parsed block and the
original segment at the same split index when one exists; otherwise a fresh
segment with zeroed timing. -/
def decodeBlockSegment (line : Str) (orig : Option Segment) : Segment :=
  let p := parseBlock line
  match orig with
  | some s => { s with text := some p.2, speaker := some p.1 }
  | none =>
      { start := some 0, stop := some 0, text := some p.2, speaker := some p.1,
        confidence := none, extra := [] }

/-- main.py lines 543-569: the loop over `enumerate(lines)`. The counter `i`
advances over every split block; blocks that strip to empty are skipped. -/
def decodeLoop (i : ℕ) (lines : List Str) (origSegs : List Segment) : List Segment :=
  match lines with
  | [] => []
  | l :: ls =>
    let line := strip l
    if line = [] then decodeLoop (i + 1) ls origSegs
    else decodeBlockSegment line (origSegs.get? i) :: decodeLoop (i + 1) ls origSegs

/-- main.py lines 540-541: split the edited text on `"\n\n"` and run the
decode loop against the original segments. -/
def decodeSegments (edited : Str) (origSegs : List Segment) : List Segment :=
  decodeLoop 0 (splitOnNlNl edited) origSegs

/-- main.py lines 525-577: strip the widget text, decode it against the
loaded record, replace `segments`, recompute `full_transcript` as the
space-join of the new texts, and write the record back. -/
def save_reviewed_transcript (widgetText : Str) (data : Record) : Record :=
  let segments := decodeSegments (strip widgetText) data.segments
  { data with
      segments := segments,
      full_transcript := List.intercalate [' '] (segments.map (fun s => s.text.getD [])) }

/-- One JSON file in the transcripts directory as the catalog reads it:
its filename and the `project_name` / `timestamp` keys (possibly absent). -/
structure TFile where
  filename : Str
  project_name : Option Str
  timestamp : Option Str
deriving DecidableEq

/-- One entry of the catalog returned by `get_saved_transcripts`. -/
structure CatalogEntry where
  filename : Str
  filepath : Str
  project_name : Str
  timestamp : Str
deriving DecidableEq

/-- transcription.py lines 124-132: the entry built for one file, with the
`.get` defaults `"Unknown"` and `""`. -/
def entryOf (f : TFile) : CatalogEntry :=
  { filename := f.filename,
    filepath := "transcripts/".toList ++ f.filename,
    project_name := f.project_name.getD ("Unknown".toList),
    timestamp := f.timestamp.getD [] }

/-- Python `<` on strings: lexicographic comparison by code point. -/
def strLt : Str → Str → Bool
  | [], [] => false
  | [], _ :: _ => true
  | _ :: _, [] => false
  | a :: xs, b :: ys => if a < b then true else if b < a then false else strLt xs ys

/-- One insertion step of a stable descending sort by timestamp. -/
def insertByTsDesc (x : CatalogEntry) : List CatalogEntry → List CatalogEntry
  | [] => [x]
  | y :: ys =>
    if strLt x.timestamp y.timestamp then y :: insertByTsDesc x ys else x :: y :: ys

/-- transcription.py line 135:
`files.sort(key=lambda x: x["timestamp"], reverse=True)` — a stable sort,
descending by timestamp (ties keep original order). -/
def sortByTsDesc : List CatalogEntry → List CatalogEntry
  | [] => []
  | x :: xs => insertByTsDesc x (sortByTsDesc xs)

/-- transcription.py lines 116-136. `none` models a missing transcripts
directory (`os.path.exists` false), in which case the scan returns `[]`;
otherwise the listing is filtered to `.json` files, parsed with defaults,
and sorted by timestamp descending. -/
def get_saved_transcripts (listing : Option (List TFile)) : List CatalogEntry :=
  match listing with
  | none => []
  | some fs =>
      sortByTsDesc ((fs.filter (fun f => (".json".toList).isSuffixOf f.filename)).map entryOf)

/-- Top-level functions defined by config_manager.py (lines 6-38). -/
def config_manager_defs : List String :=
  ["load_config", "save_config", "get_groq_api_key", "set_groq_api_key",
   "get_huggingface_token", "set_huggingface_token"]

/-- Names imported from config_manager by main.py line 8. Python resolves
every one of them when the application starts and raises ImportError if any
is missing from the module. -/
def main_config_imports : List String :=
  ["get_groq_api_key", "set_groq_api_key", "get_huggingface_token",
   "set_huggingface_token", "get_confidence_threshold", "set_confidence_threshold"]

/-- main.py lines 600-601: the guard in `save_confidence_threshold` that
accepts a parsed integer threshold only when `0 <= threshold <= 100`. -/
def confidence_threshold_guard (t : ℤ) : Bool := decide (0 ≤ t) && decide (t ≤ 100)

/-- Characters that may appear in rendered timestamp content: not whitespace
and not a closing bracket. These two facts drive the decode analysis. -/
abbrev goodChar (c : Char) : Prop := isWs c = false ∧ c ≠ ']'

/-- A concrete one-segment record used to exercise the round trip. -/
def c1Seg : Segment :=
  { start := some 0, stop := some 130, text := some ("Hello".toList),
    speaker := some ("John".toList), confidence := none, extra := [] }

/-- Record holding `c1Seg`, with `full_transcript` matching its text. -/
def c1Rec : Record :=
  { project_name := some ("P".toList), timestamp := some ("T".toList),
    full_transcript := "Hello".toList, segments := [c1Seg], extra := [] }

/-- A concrete segment with definite timing, for the decode examples. -/
def c4Seg : Segment :=
  { start := some 10, stop := some 11, text := some ("x".toList),
    speaker := some ("S".toList), confidence := some 90, extra := [] }

/-- A three-segment record with starts 10, 20, 30. -/
def c4Rec : Record :=
  { project_name := none, timestamp := none, full_transcript := [],
    segments := [c4Seg, { c4Seg with start := some 20, stop := some 21 },
                 { c4Seg with start := some 30, stop := some 31 }], extra := [] }

/-- A segment with confidence 10 and no other data. -/
def c6Seg : Segment :=
  { start := none, stop := none, text := none, speaker := none,
    confidence := some 10, extra := [] }

/-- A segment with confidence 25, for the monotonicity witness. -/
def c9Seg : Segment :=
  { start := none, stop := none, text := none, speaker := none,
    confidence := some 25, extra := [] }

/-- Three catalog files timestamped January, March, February 2024. -/
def c8Files : List TFile :=
  [{ filename := "a.json".toList, project_name := some ("A".toList),
     timestamp := some ("2024-01-01T00:00:00".toList) },
   { filename := "b.json".toList, project_name := some ("B".toList),
     timestamp := some ("2024-03-01T00:00:00".toList) },
   { filename := "c.json".toList, project_name := some ("C".toList),
     timestamp := some ("2024-02-01T00:00:00".toList) }]

theorem pyInt_intCast (z : ℤ) : pyInt ((z : ℚ)) = z := by
  unfold pyInt
  split
  · exact Int.floor_intCast z
  · rw [← Int.cast_neg, Int.floor_intCast]
    omega

theorem floor_div_sixty (q : ℚ) : ⌊q / 60⌋ = ⌊q⌋ / 60 := by
  have h1 : (⌊q⌋ : ℚ) ≤ q := Int.floor_le q
  have h2 : q < ⌊q⌋ + 1 := Int.lt_floor_add_one q
  have hdm : 60 * (⌊q⌋ / 60) + ⌊q⌋ % 60 = ⌊q⌋ := Int.ediv_add_emod ⌊q⌋ 60
  have hr0 : 0 ≤ ⌊q⌋ % 60 := Int.emod_nonneg ⌊q⌋ (by norm_num)
  have hr1 : ⌊q⌋ % 60 < 60 := Int.emod_lt_of_pos ⌊q⌋ (by norm_num)
  rw [Int.floor_eq_iff]
  constructor
  · rw [le_div_iff₀ (by norm_num : (0:ℚ) < 60)]
    have : ((60 * (⌊q⌋ / 60) : ℤ) : ℚ) ≤ (⌊q⌋ : ℚ) := by exact_mod_cast by omega
    push_cast at this ⊢
    linarith
  · rw [div_lt_iff₀ (by norm_num : (0:ℚ) < 60)]
    have : ((⌊q⌋ + 1 : ℤ) : ℚ) ≤ ((60 * (⌊q⌋ / 60 + 1) : ℤ) : ℚ) := by exact_mod_cast by omega
    push_cast at this ⊢
    linarith

theorem pyMod_sixty (q : ℚ) : pyInt (pyMod q 60) = ⌊q⌋ % 60 := by
  have hfl : (⌊q / 60⌋ : ℚ) ≤ q / 60 := Int.floor_le (q / 60)
  have hnn : 0 ≤ q - 60 * (⌊q / 60⌋ : ℚ) := by
    rw [le_div_iff₀ (by norm_num : (0:ℚ) < 60)] at hfl
    linarith
  have hcast : q - 60 * (⌊q / 60⌋ : ℚ) = q - ((60 * ⌊q / 60⌋ : ℤ) : ℚ) := by
    push_cast
    ring
  rw [pyMod, pyInt, if_pos hnn, hcast, Int.floor_sub_int, floor_div_sixty]
  omega

/-- C7: the timestamp prefix is `[MM:SS]` with minutes `floor(start/60)` and
seconds `floor(start) mod 60`, both zero-padded to two digits; in particular
`start = 125.7` renders as `[02:05]` and `start = 0` as `[00:00]`. -/
theorem C7_timestamp_format :
    (∀ start : ℚ,
        formatTimestamp start =
          '[' :: (pad2 ⌊start / 60⌋ ++ ':' :: pad2 (⌊start⌋ % 60)) ++ [']']) ∧
    formatTimestamp 125.7 = "[02:05]".toList ∧
    formatTimestamp 0 = "[00:00]".toList := by
  have hgen : ∀ start : ℚ,
      formatTimestamp start =
        '[' :: (pad2 ⌊start / 60⌋ ++ ':' :: pad2 (⌊start⌋ % 60)) ++ [']'] := by
    intro start
    rw [formatTimestamp, tsContent, pyFloorDiv, pyInt_intCast, pyMod_sixty]
  refine ⟨hgen, ?_, ?_⟩
  · rw [hgen]
    have h1 : (⌊(125.7 : ℚ) / 60⌋ : ℤ) = 2 := by norm_num
    have h2 : (⌊(125.7 : ℚ)⌋ : ℤ) = 125 := by norm_num
    rw [h1, h2]
    decide
  · rw [hgen]
    norm_num
    decide

/-- C2 (code bug evaluation): main.py line 8 imports the confidence
threshold accessors from config_manager, but config_manager.py defines no
such functions, so resolving the import at application start fails. -/
theorem C2_missing_threshold_accessors :
    "get_confidence_threshold" ∈ main_config_imports ∧
    "set_confidence_threshold" ∈ main_config_imports ∧
    "get_confidence_threshold" ∉ config_manager_defs ∧
    "set_confidence_threshold" ∉ config_manager_defs := by
  refine ⟨by decide, by decide, ?_, ?_⟩ <;> decide

/-- C5: after every decode, `full_transcript` equals the space-joined
concatenation of the new segments' text fields, for every edited text and
original record. -/
theorem C5_full_transcript_invariant (widgetText : Str) (data : Record) :
    (save_reviewed_transcript widgetText data).full_transcript =
      List.intercalate [' ']
        ((save_reviewed_transcript widgetText data).segments.map (fun s => s.text.getD [])) :=
  rfl

/-- C10: decode-and-persist rewrites only `segments` and `full_transcript`;
`project_name`, `timestamp` and every other top-level key of the loaded
record are written back unchanged. -/
theorem C10_frame (widgetText : Str) (data : Record) :
    (save_reviewed_transcript widgetText data).project_name = data.project_name ∧
    (save_reviewed_transcript widgetText data).timestamp = data.timestamp ∧
    (save_reviewed_transcript widgetText data).extra = data.extra :=
  ⟨rfl, rfl, rfl⟩

/-- C6: under a threshold admitted by the setter's `0 <= t <= 100` guard, a
segment is flagged low-confidence exactly when it carries a confidence value
strictly below the threshold; segments lacking a confidence value are never
flagged. -/
theorem C6_flagging (seg : Segment) (t : ℤ)
    (h : confidence_threshold_guard t = true) :
    low_confidence seg t = true ↔ ∃ c, seg.confidence = some c ∧ c < (t : ℚ) := by
  have ht : (t : ℚ) ≤ 100 := by
    have h100 : t ≤ 100 := by
      have := h
      unfold confidence_threshold_guard at this
      simp only [Bool.and_eq_true, decide_eq_true_eq] at this
      exact this.2
    exact_mod_cast h100
  cases hc : seg.confidence with
  | none =>
      simp only [low_confidence, hc, Option.getD_none, decide_eq_true_eq]
      constructor
      · intro hlt
        exact absurd hlt (not_lt.mpr ht)
      · rintro ⟨c, hcc, -⟩
        cases hcc
  | some c =>
      simp only [low_confidence, hc, Option.getD_some, decide_eq_true_eq]
      constructor
      · intro hlt
        exact ⟨c, rfl, hlt⟩
      · rintro ⟨c', hcc, hlt⟩
        cases hcc
        exact hlt

/-- Witness for C6 at a concrete segment and threshold. -/
theorem C6_flagging_witness :
    confidence_threshold_guard 80 = true ∧
    (low_confidence c6Seg 80 = true ↔ ∃ c, c6Seg.confidence = some c ∧ c < ((80 : ℤ) : ℚ)) :=
  ⟨by decide, C6_flagging c6Seg 80 (by decide)⟩

/-- C9: threshold flagging is monotone — any segment flagged at threshold
`t1` is also flagged at any threshold `t2 >= t1`. -/
theorem C9_monotone (seg : Segment) (t1 t2 : ℤ) (hle : t1 ≤ t2)
    (h : low_confidence seg t1 = true) : low_confidence seg t2 = true := by
  simp only [low_confidence, decide_eq_true_eq] at h ⊢
  exact lt_of_lt_of_le h (by exact_mod_cast hle)

/-- Witness for C9 at a concrete segment and thresholds 30 and 40. -/
theorem C9_monotone_witness :
    (30 : ℤ) ≤ 40 ∧ low_confidence c9Seg 30 = true ∧ low_confidence c9Seg 40 = true :=
  ⟨by decide, by decide, C9_monotone c9Seg 30 40 (by decide) (by decide)⟩

theorem dropWhile_append_of_all {α : Type} (p : α → Bool) :
    ∀ (a b : List α), (∀ c ∈ a, p c = true) →
      List.dropWhile p (a ++ b) = List.dropWhile p b := by
  intro a
  induction a with
  | nil => intro b _; rfl
  | cons x xs ih =>
    intro b h
    have hx : p x = true := h x (by simp)
    rw [List.cons_append, List.dropWhile_cons, if_pos hx]
    exact ih b (fun c hc => h c (by simp [hc]))

theorem takeWhile_append_of_all {α : Type} (p : α → Bool) :
    ∀ (a b : List α), (∀ c ∈ a, p c = true) →
      List.takeWhile p (a ++ b) = a ++ List.takeWhile p b := by
  intro a
  induction a with
  | nil => intro b _; rfl
  | cons x xs ih =>
    intro b h
    have hx : p x = true := h x (by simp)
    rw [List.cons_append, List.takeWhile_cons, if_pos hx, ih b (fun c hc => h c (by simp [hc])),
      List.cons_append]

theorem parseBlock_bracket (pre suf : Str) (hpre : ']' ∉ pre) :
    parseBlock (('[' :: pre) ++ ']' :: suf) = (pre, strip suf) := by
  have hall : ∀ c ∈ '[' :: pre, (fun c => decide (c ≠ ']')) c = true := by
    intro c hc
    rcases List.mem_cons.mp hc with h | h
    · subst h; decide
    · simp only [decide_eq_true_eq]
      intro e
      exact hpre (e ▸ h)
  have hstop : (fun c => decide (c ≠ ']')) ']' = false := by decide
  have hcond : (('[' :: pre) ++ ']' :: suf).head? = some '[' ∧ ']' ∈ ('[' :: pre) ++ ']' :: suf := by
    constructor
    · rw [List.cons_append]; rfl
    · simp
  rw [parseBlock, if_pos hcond]
  rw [takeWhile_append_of_all _ _ _ hall, dropWhile_append_of_all _ _ _ hall]
  rw [List.takeWhile_cons, if_neg (by simp [hstop]), List.dropWhile_cons, if_neg (by simp [hstop])]
  simp

theorem parseBlock_fallback (line : Str)
    (h : ¬(line.head? = some '[' ∧ ']' ∈ line)) :
    parseBlock line = ("Speaker".toList, line) := by
  rw [parseBlock, if_neg h]

/-- C3: a non-empty block starting with `[` and containing `]` parses into
the bracketed prefix as speaker and the trimmed remainder as text; any other
block parses to the default `"Speaker"` with the whole block as text. -/
theorem C3_parse_block :
    (∀ pre suf : Str, ']' ∉ pre →
        parseBlock (('[' :: pre) ++ ']' :: suf) = (pre, strip suf)) ∧
    (∀ line : Str, ¬(line.head? = some '[' ∧ ']' ∈ line) →
        parseBlock line = ("Speaker".toList, line)) :=
  ⟨parseBlock_bracket, parseBlock_fallback⟩

/-- Witness for C3 at a bracketed block and at a malformed block with an
unbalanced opening bracket. -/
theorem C3_parse_block_witness :
    ']' ∉ ("Alice".toList) ∧
    parseBlock (('[' :: "Alice".toList) ++ ']' :: " hi there ".toList) =
      ("Alice".toList, strip (" hi there ".toList)) ∧
    ¬(("[oops".toList).head? = some '[' ∧ ']' ∈ "[oops".toList) ∧
    parseBlock ("[oops".toList) = ("Speaker".toList, "[oops".toList) :=
  ⟨by decide, C3_parse_block.1 ("Alice".toList) (" hi there ".toList) (by decide),
   by decide, C3_parse_block.2 ("[oops".toList) (by decide)⟩

theorem strLt_asymm : ∀ (x y : Str), strLt x y = true → strLt y x = false := by
  intro x
  induction x with
  | nil =>
    intro y h
    cases y with
    | nil => simp [strLt] at h
    | cons b ys => simp [strLt]
  | cons a xs ih =>
    intro y h
    cases y with
    | nil => simp [strLt] at h
    | cons b ys =>
      simp only [strLt] at h ⊢
      by_cases hab : a < b
      · rw [if_neg (lt_asymm hab), if_pos hab]
      · rw [if_neg hab] at h
        by_cases hba : b < a
        · rw [if_pos hba] at h
          exact absurd h (by simp)
        · rw [if_neg hba] at h
          rw [if_neg hba, if_neg hab]
          exact ih ys h

theorem insertByTsDesc_perm (x : CatalogEntry) :
    ∀ l : List CatalogEntry, (insertByTsDesc x l).Perm (x :: l) := by
  intro l
  induction l with
  | nil => simp [insertByTsDesc]
  | cons y ys ih =>
    rw [insertByTsDesc]
    split
    · exact (ih.cons y).trans (List.Perm.swap x y ys)
    · exact List.Perm.refl _

theorem sortByTsDesc_perm : ∀ l : List CatalogEntry, (sortByTsDesc l).Perm l := by
  intro l
  induction l with
  | nil => simp [sortByTsDesc]
  | cons x xs ih => exact (insertByTsDesc_perm x (sortByTsDesc xs)).trans (ih.cons x)

theorem chain_insertByTsDesc (x : CatalogEntry) :
    ∀ l : List CatalogEntry,
      List.Chain' (fun a b => strLt a.timestamp b.timestamp = false) l →
      List.Chain' (fun a b => strLt a.timestamp b.timestamp = false) (insertByTsDesc x l) := by
  intro l
  induction l with
  | nil =>
    intro _
    simp [insertByTsDesc]
  | cons y ys ih =>
    intro hch
    rw [insertByTsDesc]
    split
    · rename_i hxy
      rw [List.chain'_cons']
      refine ⟨?_, ih hch.tail⟩
      intro b hb
      cases ys with
      | nil =>
        simp [insertByTsDesc] at hb
        subst hb
        exact strLt_asymm _ _ hxy
      | cons z zs =>
        rw [insertByTsDesc] at hb
        split at hb
        · simp at hb
          subst hb
          exact (List.chain'_cons.mp hch).1
        · simp at hb
          subst hb
          exact strLt_asymm _ _ hxy
    · rename_i hxy
      rw [List.chain'_cons]
      exact ⟨by simpa using hxy, hch⟩

theorem chain_sortByTsDesc :
    ∀ l : List CatalogEntry,
      List.Chain' (fun a b => strLt a.timestamp b.timestamp = false) (sortByTsDesc l) := by
  intro l
  induction l with
  | nil => simp [sortByTsDesc]
  | cons x xs ih => exact chain_insertByTsDesc x (sortByTsDesc xs) ih

/-- C8: the catalog scan returns `[]` for a missing directory; otherwise it
returns one entry per `.json` file, with defaults `"Unknown"` and `""` for
missing fields, in an order that never increases lexicographically by
timestamp; records timestamped January, March, February come back in order
March, February, January. -/
theorem C8_catalog :
    get_saved_transcripts none = [] ∧
    (∀ fs : List TFile,
        (get_saved_transcripts (some fs)).Perm
          ((fs.filter (fun f => (".json".toList).isSuffixOf f.filename)).map entryOf)) ∧
    (∀ fs : List TFile,
        List.Chain' (fun a b => strLt a.timestamp b.timestamp = false)
          (get_saved_transcripts (some fs))) ∧
    get_saved_transcripts (some c8Files) =
      [{ filename := "b.json".toList, filepath := "transcripts/b.json".toList,
         project_name := "B".toList, timestamp := "2024-03-01T00:00:00".toList },
       { filename := "c.json".toList, filepath := "transcripts/c.json".toList,
         project_name := "C".toList, timestamp := "2024-02-01T00:00:00".toList },
       { filename := "a.json".toList, filepath := "transcripts/a.json".toList,
         project_name := "A".toList, timestamp := "2024-01-01T00:00:00".toList }] := by
  refine ⟨rfl, ?_, ?_, by decide⟩
  · intro fs
    exact sortByTsDesc_perm _
  · intro fs
    exact chain_sortByTsDesc _

theorem decodeLoop_eq_enumFrom :
    ∀ (ls : List Str) (i : ℕ) (segs : List Segment),
      decodeLoop i ls segs =
        (List.enumFrom i ls).filterMap (fun p =>
          if strip p.2 = [] then none
          else some (decodeBlockSegment (strip p.2) (segs.get? p.1))) := by
  intro ls
  induction ls with
  | nil => intro i segs; rfl
  | cons l ls ih =>
    intro i segs
    rw [decodeLoop, List.enumFrom, List.filterMap_cons]
    by_cases h : strip l = []
    · rw [if_pos h]
      simp only [h, if_pos rfl]
      exact ih (i + 1) segs
    · rw [if_neg h]
      simp only [if_neg h]
      rw [ih (i + 1) segs]

/-- C4 (counterexample to the output-order indexing): decoding
`"A\n\n\n\nB"` (an empty block between `A` and `B`) against the
three-segment record with starts 10, 20, 30 copies timing for the surviving
block `B` from split index 2 (start 30), not from its output position 1
(start 20). -/
theorem C4_counterexample :
    (save_reviewed_transcript ("A\n\n\n\nB".toList) c4Rec).segments.map (fun s => s.start) =
      [some 10, some 30] ∧
    c4Rec.segments.map (fun s => s.start) = [some 10, some 20, some 30] ∧
    ¬((save_reviewed_transcript ("A\n\n\n\nB".toList) c4Rec).segments.map (fun s => s.start) =
      [some 10, some 20]) :=
  ⟨rfl, rfl, by decide⟩

/-- C4 (amended): decode splits on the double-line-break separator and
discards blocks empty after trimming, but the index used to copy timing from
the original record is the block's position in the raw split sequence
(counting discarded blocks), not its position in output order; a block whose
split index has no original segment gets `start = end = 0`. With no
discarded blocks the two indexings coincide: decoding five non-empty blocks
against the three-segment record yields positions 3 and 4 zero-timed. -/
theorem C4_decode_split_index :
    (∀ (edited : Str) (segs : List Segment),
        decodeSegments edited segs =
          (List.enum (splitOnNlNl edited)).filterMap (fun p =>
            if strip p.2 = [] then none
            else some (decodeBlockSegment (strip p.2) (segs.get? p.1)))) ∧
    (save_reviewed_transcript ("A\n\nB\n\nC\n\nD\n\nE".toList) c4Rec).segments.map
        (fun s => (s.start, s.stop)) =
      [(some 10, some 11), (some 20, some 21), (some 30, some 31),
       (some 0, some 0), (some 0, some 0)] :=
  ⟨fun edited segs => decodeLoop_eq_enumFrom (splitOnNlNl edited) 0 segs, rfl⟩

theorem dropWhile_append_split {α : Type} (p : α → Bool) :
    ∀ (a b : List α),
      List.dropWhile p (a ++ b) =
        if (List.dropWhile p a).isEmpty then List.dropWhile p b
        else List.dropWhile p a ++ b := by
  intro a
  induction a with
  | nil => intro b; rfl
  | cons x xs ih =>
    intro b
    by_cases hx : p x = true
    · rw [List.cons_append, List.dropWhile_cons, if_pos hx, ih b, List.dropWhile_cons, if_pos hx]
    · have hx' : p x = false := by simpa using hx
      rw [List.cons_append, List.dropWhile_cons, if_neg (by simp [hx']),
        List.dropWhile_cons, if_neg (by simp [hx']), if_neg hx]
      rfl

theorem rstrip_eq_nil_iff (s : Str) : rstrip s = [] ↔ ∀ c ∈ s, isWs c = true := by
  rw [rstrip, List.reverse_eq_nil_iff, List.dropWhile_eq_nil_iff]
  constructor
  · intro h c hc
    exact h c (List.mem_reverse.mpr hc)
  · intro h c hc
    exact h c (List.mem_reverse.mp hc)

theorem mem_rstrip (c : Char) (s : Str) (h : c ∈ rstrip s) : c ∈ s := by
  rw [rstrip] at h
  have := (List.dropWhile_sublist (l := s.reverse) isWs).mem (List.mem_reverse.mp h)
  exact List.mem_reverse.mp this

theorem rstrip_append (a b : Str) (h : rstrip b ≠ []) : rstrip (a ++ b) = a ++ rstrip b := by
  have hb : (List.dropWhile isWs b.reverse).isEmpty = false := by
    by_cases he : List.dropWhile isWs b.reverse = []
    · exact absurd (by rw [rstrip, he]; rfl) h
    · rcases List.exists_cons_of_ne_nil he with ⟨x, t, hxt⟩
      rw [hxt]
      rfl
  rw [rstrip, List.reverse_append, dropWhile_append_split, hb, if_neg (by simp),
    List.reverse_append, List.reverse_reverse, rstrip]

theorem rstrip_append_ws (s w : Str) (h : ∀ c ∈ w, isWs c = true) :
    rstrip (s ++ w) = rstrip s := by
  rw [rstrip, List.reverse_append,
    dropWhile_append_of_all isWs w.reverse s.reverse
      (fun c hc => h c (List.mem_reverse.mp hc)),
    rstrip]

theorem rstrip_cons_of_ne (c : Char) (s : Str) (h : rstrip s ≠ []) :
    rstrip (c :: s) = c :: rstrip s := by
  have : c :: s = [c] ++ s := rfl
  rw [this, rstrip_append [c] s h]
  rfl

theorem rstrip_cons_not_ws (c : Char) (s : Str) (h : isWs c = false) :
    rstrip (c :: s) = c :: rstrip s := by
  by_cases hs : rstrip s = []
  · have hws : ∀ x ∈ s, isWs x = true := (rstrip_eq_nil_iff s).mp hs
    have : c :: s = [c] ++ s := rfl
    rw [this, rstrip_append_ws [c] s hws, hs]
    rw [rstrip]
    simp [h]
  · exact rstrip_cons_of_ne c s hs

theorem dropWhile_dropWhile {α : Type} (p : α → Bool) :
    ∀ l : List α, List.dropWhile p (List.dropWhile p l) = List.dropWhile p l := by
  intro l
  induction l with
  | nil => rfl
  | cons x xs ih =>
    by_cases hx : p x = true
    · rw [List.dropWhile_cons, if_pos hx, ih]
    · have hx' : p x = false := by simpa using hx
      rw [List.dropWhile_cons, if_neg (by simp [hx']), List.dropWhile_cons, if_neg (by simp [hx'])]

theorem rstrip_idem (s : Str) : rstrip (rstrip s) = rstrip s := by
  rw [rstrip, rstrip, List.reverse_reverse, dropWhile_dropWhile]

theorem lstrip_cons_not_ws (c : Char) (s : Str) (h : isWs c = false) :
    lstrip (c :: s) = c :: s := by
  rw [lstrip, List.dropWhile_cons, if_neg (by simp [h])]

theorem lstrip_cons_ws (c : Char) (s : Str) (h : isWs c = true) :
    lstrip (c :: s) = lstrip s := by
  rw [lstrip, List.dropWhile_cons, if_pos h, lstrip]

theorem strip_cons_not_ws (c : Char) (s : Str) (h : isWs c = false) :
    strip (c :: s) = c :: rstrip s := by
  rw [strip, rstrip_cons_not_ws c s h, lstrip_cons_not_ws c (rstrip s) h]

theorem strip_rstrip (s : Str) : strip (rstrip s) = strip s := by
  rw [strip, rstrip_idem, strip]

theorem splitOnNlNl_sep (b : Str) : splitOnNlNl ('\n' :: '\n' :: b) = [] :: splitOnNlNl b := rfl

theorem splitOnNlNl_no_nl : ∀ (a : Str), '\n' ∉ a → splitOnNlNl a = [a] := by
  intro a
  induction a with
  | nil => intro _; rfl
  | cons c rest ih =>
    intro h
    have hc : c ≠ '\n' := fun e => h (by simp [e])
    have hr : '\n' ∉ rest := fun m => h (by simp [m])
    rw [splitOnNlNl.eq_def]
    split
    · rename_i heq
      exact (List.cons_ne_nil c rest heq).elim
    · rename_i heq
      injection heq with h1 _
      exact absurd h1 hc
    · rename_i heq
      injection heq with h1 h2
      subst h1
      subst h2
      rw [ih hr]

theorem splitOnNlNl_append_sep : ∀ (a b : Str), '\n' ∉ a →
    splitOnNlNl (a ++ '\n' :: '\n' :: b) = a :: splitOnNlNl b := by
  intro a
  induction a with
  | nil => intro b _; exact splitOnNlNl_sep b
  | cons c rest ih =>
    intro b h
    have hc : c ≠ '\n' := fun e => h (by simp [e])
    have hr : '\n' ∉ rest := fun m => h (by simp [m])
    rw [List.cons_append, splitOnNlNl.eq_def]
    split
    · rename_i heq
      exact (List.cons_ne_nil _ _ heq).elim
    · rename_i heq
      injection heq with h1 _
      exact absurd h1 hc
    · rename_i heq
      injection heq with h1 h2
      subst h1
      subst h2
      rw [ih b hr]

theorem splitOnNlNl_flatten :
    ∀ (bodies : List Str) (final : Str),
      (∀ b ∈ bodies, '\n' ∉ b) → '\n' ∉ final →
      splitOnNlNl ((bodies.map (fun b => b ++ ['\n', '\n'])).flatten ++ final) =
        bodies ++ [final] := by
  intro bodies
  induction bodies with
  | nil =>
    intro final _ hf
    simp only [List.map_nil, List.flatten_nil, List.nil_append]
    rw [splitOnNlNl_no_nl final hf]
  | cons b bs ih =>
    intro final hb hf
    simp only [List.map_cons, List.flatten_cons, List.append_assoc]
    have hsep : b ++ ['\n', '\n'] ++ ((bs.map (fun x => x ++ ['\n', '\n'])).flatten ++ final) =
        b ++ '\n' :: '\n' :: ((bs.map (fun x => x ++ ['\n', '\n'])).flatten ++ final) := by
      simp [List.append_assoc]
    rw [← List.append_assoc, hsep,
      splitOnNlNl_append_sep b _ (hb b (by simp)),
      ih final (fun c hc => hb c (by simp [hc])) hf]
    rfl

theorem goodChar_digitChar : ∀ n < 10, goodChar (Nat.digitChar n) := by
  decide

theorem goodChar_ne_nl (c : Char) (h : goodChar c) : c ≠ '\n' := by
  intro e
  subst e
  exact absurd h.1 (by decide)

theorem toDigitsCore_good :
    ∀ (fuel n : ℕ) (acc : Str), (∀ c ∈ acc, goodChar c) →
      ∀ c ∈ Nat.toDigitsCore 10 fuel n acc, goodChar c := by
  intro fuel
  induction fuel with
  | zero => intro n acc hacc; exact hacc
  | succ f ih =>
    intro n acc hacc c hc
    rw [Nat.toDigitsCore] at hc
    have hd : goodChar (Nat.digitChar (n % 10)) :=
      goodChar_digitChar (n % 10) (Nat.mod_lt n (by norm_num))
    have hacc' : ∀ x ∈ Nat.digitChar (n % 10) :: acc, goodChar x := by
      intro x hx
      rcases List.mem_cons.mp hx with h | h
      · subst h; exact hd
      · exact hacc x h
    split at hc
    · exact hacc' c hc
    · exact ih (n / 10) _ hacc' c hc

theorem natDigits_good (n : ℕ) : ∀ c ∈ natDigits n, goodChar c :=
  toDigitsCore_good (n + 1) n [] (by intro c hc; cases hc)

theorem intStr_good (m : ℤ) : ∀ c ∈ intStr m, goodChar c := by
  intro c hc
  rw [intStr] at hc
  split at hc
  · rcases List.mem_cons.mp hc with h | h
    · subst h; decide
    · exact natDigits_good m.natAbs c h
  · exact natDigits_good m.natAbs c hc

theorem pad2_good (m : ℤ) : ∀ c ∈ pad2 m, goodChar c := by
  intro c hc
  rw [pad2] at hc
  split at hc
  · rcases List.mem_cons.mp hc with h | h
    · subst h; decide
    · exact intStr_good m c h
  · exact intStr_good m c hc

theorem tsContent_good (q : ℚ) : ∀ c ∈ tsContent q, goodChar c := by
  intro c hc
  rw [tsContent] at hc
  rcases List.mem_append.mp hc with h | h
  · exact pad2_good _ c h
  · rcases List.mem_cons.mp h with h | h
    · subst h; decide
    · exact pad2_good _ c h

theorem tsContent_no_bracket (q : ℚ) : ']' ∉ tsContent q := by
  intro h
  exact absurd (tsContent_good q ']' h).2 (by simp)

theorem tsContent_no_nl (q : ℚ) : '\n' ∉ tsContent q := by
  intro h
  exact goodChar_ne_nl '\n' (tsContent_good q '\n' h) rfl

theorem bodyOf_eq (s : Segment) :
    bodyOf s = ('[' :: tsContent (s.start.getD 0)) ++ ']' ::
      ' ' :: '[' :: ((s.speaker.getD ("Speaker".toList)) ++ ']' :: ' ' :: (s.text.getD [])) := by
  simp [bodyOf, formatTimestamp, List.append_assoc]

theorem rstrip_ts_block (ts rest : Str) :
    rstrip (('[' :: ts) ++ ']' :: rest) = ('[' :: ts) ++ ']' :: rstrip rest := by
  have hne : rstrip (']' :: rest) ≠ [] := by
    rw [rstrip_cons_not_ws ']' rest (by decide)]
    exact List.cons_ne_nil _ _
  rw [rstrip_append ('[' :: ts) (']' :: rest) hne, rstrip_cons_not_ws ']' rest (by decide)]

theorem strip_ts_block (ts rest : Str) :
    strip (('[' :: ts) ++ ']' :: rest) = ('[' :: ts) ++ ']' :: rstrip rest := by
  rw [strip, rstrip_ts_block, List.cons_append,
    lstrip_cons_not_ws '[' _ (by decide), ← List.cons_append]

theorem strip_cons_ws_of_ne (c : Char) (s : Str) (hc : isWs c = true) (h : rstrip s ≠ []) :
    strip (c :: s) = strip s := by
  rw [strip, rstrip_cons_of_ne c s h, lstrip_cons_ws c _ hc]
  rfl

theorem rstrip_bodyOf_ne_nil (s : Segment) : rstrip (bodyOf s) ≠ [] := by
  rw [bodyOf_eq, rstrip_ts_block]
  simp

theorem strip_bodyOf_ne_nil (s : Segment) : strip (bodyOf s) ≠ [] := by
  rw [bodyOf_eq, strip_ts_block]
  simp

theorem parseBlock_strip_body (s : Segment) :
    parseBlock (strip (bodyOf s)) =
      (tsContent (s.start.getD 0),
       strip ('[' :: ((s.speaker.getD ("Speaker".toList)) ++ ']' :: ' ' :: (s.text.getD [])))) := by
  have hne2 : rstrip ('[' :: ((s.speaker.getD ("Speaker".toList)) ++ ']' :: ' ' :: (s.text.getD []))) ≠ [] := by
    rw [rstrip_cons_not_ws '[' _ (by decide)]
    exact List.cons_ne_nil _ _
  rw [bodyOf_eq, strip_ts_block, parseBlock_bracket _ _ (tsContent_no_bracket _), strip_rstrip,
    strip_cons_ws_of_ne ' ' _ (by decide) hne2]

theorem decodeBlockSegment_body (s : Segment) :
    decodeBlockSegment (strip (bodyOf s)) (some s) =
      { s with
          speaker := some (tsContent (s.start.getD 0)),
          text := some (strip ('[' ::
            ((s.speaker.getD ("Speaker".toList)) ++ ']' :: ' ' :: (s.text.getD [])))) } := by
  simp only [decodeBlockSegment, parseBlock_strip_body]

theorem bodyOf_no_nl (s : Segment)
    (hsp : '\n' ∉ s.speaker.getD ("Speaker".toList)) (htx : '\n' ∉ s.text.getD []) :
    '\n' ∉ bodyOf s := by
  rw [bodyOf_eq]
  intro hmem
  rcases List.mem_append.mp hmem with h | h
  · rcases List.mem_cons.mp h with h | h
    · exact absurd h (by decide)
    · exact tsContent_no_nl _ h
  · rcases List.mem_cons.mp h with h | h
    · exact absurd h (by decide)
    rcases List.mem_cons.mp h with h | h
    · exact absurd h (by decide)
    rcases List.mem_cons.mp h with h | h
    · exact absurd h (by decide)
    rcases List.mem_append.mp h with h | h
    · exact hsp h
    rcases List.mem_cons.mp h with h | h
    · exact absurd h (by decide)
    rcases List.mem_cons.mp h with h | h
    · exact absurd h (by decide)
    · exact htx h

theorem lstrip_head_bracket : ∀ l : Str, l.head? = some '[' → lstrip l = l := by
  intro l hl
  cases l with
  | nil => cases hl
  | cons c t =>
    have : c = '[' := by
      injection hl
    subst this
    exact lstrip_cons_not_ws '[' t (by decide)

theorem decodeLoop_zip :
    ∀ (bs : List Str) (i : ℕ) (segs : List Segment),
      (∀ b ∈ bs, strip b ≠ []) → i + bs.length = segs.length →
      decodeLoop i bs segs =
        (bs.zip (segs.drop i)).map
          (fun p => decodeBlockSegment (strip p.1) (some p.2)) := by
  intro bs
  induction bs with
  | nil => intro i segs _ _; rfl
  | cons b bs ih =>
    intro i segs hne hlen
    have hi : i < segs.length := by
      simp only [List.length_cons] at hlen
      omega
    have hne_b : strip b ≠ [] := hne b (by simp)
    rw [decodeLoop, if_neg hne_b, List.get?_eq_get hi, List.drop_eq_getElem_cons hi,
      List.zip_cons_cons, List.map_cons]
    have htail : i + 1 + bs.length = segs.length := by
      simp only [List.length_cons] at hlen
      omega
    rw [ih (i + 1) segs (fun c hc => hne c (by simp [hc])) htail]
    rfl

theorem save_roundtrip_segments (t : ℤ) (r : Record)
    (h : ∀ s ∈ r.segments,
        '\n' ∉ s.speaker.getD ("Speaker".toList) ∧ '\n' ∉ s.text.getD []) :
    (save_reviewed_transcript (load_transcript_for_review t r).1 r).segments =
      r.segments.map (fun s =>
        { s with
            speaker := some (tsContent (s.start.getD 0)),
            text := some (strip ('[' ::
              ((s.speaker.getD ("Speaker".toList)) ++ ']' :: ' ' :: (s.text.getD [])))) }) := by
  rcases List.eq_nil_or_concat' r.segments with hnil | ⟨ss, last, hcat⟩
  · have hw : (load_transcript_for_review t r).1 = [] := by
      simp [load_transcript_for_review, hnil]
    show decodeSegments (strip ((load_transcript_for_review t r).1)) r.segments = _
    rw [hw, hnil]
    rfl
  · have hmem_last : last ∈ r.segments := by rw [hcat]; simp
    have hlast := h last hmem_last
    have hss : ∀ s ∈ ss,
        '\n' ∉ s.speaker.getD ("Speaker".toList) ∧ '\n' ∉ s.text.getD [] :=
      fun s hs => h s (by rw [hcat]; simp [hs])
    have hmap : ss.map encodeSegment = (ss.map bodyOf).map (fun b => b ++ ['\n', '\n']) := by
      rw [List.map_map]
      rfl
    have hw : (load_transcript_for_review t r).1 =
        ((ss.map bodyOf).map (fun b => b ++ ['\n', '\n'])).flatten ++
          (bodyOf last ++ ['\n', '\n']) := by
      show (r.segments.map encodeSegment).flatten = _
      rw [hcat, List.map_append, List.flatten_append, hmap]
      simp [encodeSegment]
    have hstrip : strip ((load_transcript_for_review t r).1) =
        ((ss.map bodyOf).map (fun b => b ++ ['\n', '\n'])).flatten ++ rstrip (bodyOf last) := by
      rw [hw, strip, ← List.append_assoc,
        rstrip_append_ws _ ['\n', '\n'] (by decide),
        rstrip_append _ (bodyOf last) (rstrip_bodyOf_ne_nil last)]
      apply lstrip_head_bracket
      cases ss with
      | nil =>
        simp only [List.map_nil, List.flatten_nil, List.nil_append]
        rw [bodyOf_eq, rstrip_ts_block]
        rfl
      | cons s0 ss2 =>
        simp only [List.map_cons, List.flatten_cons, List.append_assoc]
        rw [bodyOf_eq, List.cons_append, List.cons_append]
        rfl
    have hsplit : splitOnNlNl (strip ((load_transcript_for_review t r).1)) =
        ss.map bodyOf ++ [rstrip (bodyOf last)] := by
      rw [hstrip]
      apply splitOnNlNl_flatten
      · intro b hb
        rcases List.mem_map.mp hb with ⟨s, hs, rfl⟩
        exact bodyOf_no_nl s (hss s hs).1 (hss s hs).2
      · intro hm
        exact bodyOf_no_nl last hlast.1 hlast.2 (mem_rstrip _ _ hm)
    show decodeSegments (strip ((load_transcript_for_review t r).1)) r.segments = _
    rw [decodeSegments, hsplit]
    rw [decodeLoop_zip _ 0 r.segments ?hne ?hlen]
    case hne =>
      intro b hb
      rcases List.mem_append.mp hb with h1 | h1
      · rcases List.mem_map.mp h1 with ⟨s, _, rfl⟩
        exact strip_bodyOf_ne_nil s
      · have hb2 : b = rstrip (bodyOf last) := by simpa using h1
        rw [hb2, strip_rstrip]
        exact strip_bodyOf_ne_nil last
    case hlen =>
      rw [hcat]
      simp
    rw [List.drop_zero, hcat, List.zip_append (by simp)]
    have hzip : (ss.map bodyOf).zip ss = ss.map (fun s => (bodyOf s, s)) := by
      nth_rewrite 2 [show ss = ss.map id from (List.map_id ss).symm]
      rw [List.zip_map' bodyOf id ss]
      rfl
    rw [hzip]
    simp only [List.zip_cons_cons, List.zip_nil_right, List.map_append, List.map_map,
      List.map_cons, List.map_nil]
    congr 1
    · apply List.map_congr_left
      intro s _
      exact decodeBlockSegment_body s
    · rw [strip_rstrip, decodeBlockSegment_body]

/-- C1 (counterexample to round-trip identity): a one-segment record with
speaker `John`, text `Hello`, `start = 0` encodes to
`"[00:00] [John] Hello\n\n"`; decoding that text unchanged yields speaker
`"00:00"` (the timestamp) and text `"[John] Hello"`, and the recomputed
`full_transcript` is `"[John] Hello"`, none of which match the original. -/
theorem C1_counterexample :
    (save_reviewed_transcript (load_transcript_for_review 0 c1Rec).1 c1Rec).segments.map
        (fun s => s.speaker) = [some ("00:00".toList)] ∧
    c1Rec.segments.map (fun s => s.speaker) = [some ("John".toList)] ∧
    (save_reviewed_transcript (load_transcript_for_review 0 c1Rec).1 c1Rec).full_transcript =
      "[John] Hello".toList ∧
    c1Rec.full_transcript = "Hello".toList := by
  have h0 : tsContent ((0 : ℚ)) = "00:00".toList := by
    have h1 : pyInt (pyFloorDiv 0 60) = 0 := by simp [pyInt, pyFloorDiv]
    have h2 : pyInt (pyMod 0 60) = 0 := by simp [pyInt, pyMod]
    rw [tsContent, h1, h2]
    decide
  have he : (load_transcript_for_review 0 c1Rec).1 = "[00:00] [John] Hello\n\n".toList := by
    simp [load_transcript_for_review, c1Rec, c1Seg, encodeSegment, bodyOf, formatTimestamp, h0]
  refine ⟨?_, by decide, ?_, by decide⟩
  · rw [he]
    decide
  · rw [he]
    decide

/-- C1 (amended): for a record whose segment speakers and texts contain no
newline, encoding then decoding with no edits preserves segment count and
every field except `text` and `speaker`: the decoded speaker at index `i` is
the rendered `MM:SS` timestamp content of the original `start`, the decoded
text is `"[" + speaker + "] " + text` (whitespace-trimmed), and
`full_transcript` is the space-join of those texts. The original `text` and
`speaker` fields are not recovered. -/
theorem C1_roundtrip_amended (t : ℤ) (r : Record)
    (h : ∀ s ∈ r.segments,
        '\n' ∉ s.speaker.getD ("Speaker".toList) ∧ '\n' ∉ s.text.getD []) :
    (save_reviewed_transcript (load_transcript_for_review t r).1 r).segments =
      r.segments.map (fun s =>
        { s with
            speaker := some (tsContent (s.start.getD 0)),
            text := some (strip ('[' ::
              ((s.speaker.getD ("Speaker".toList)) ++ ']' :: ' ' :: (s.text.getD [])))) }) ∧
    (save_reviewed_transcript (load_transcript_for_review t r).1 r).full_transcript =
      List.intercalate [' ']
        (r.segments.map (fun s =>
          strip ('[' :: ((s.speaker.getD ("Speaker".toList)) ++ ']' :: ' ' :: (s.text.getD []))))) := by
  refine ⟨save_roundtrip_segments t r h, ?_⟩
  have hfull : (save_reviewed_transcript (load_transcript_for_review t r).1 r).full_transcript =
      List.intercalate [' ']
        (((save_reviewed_transcript (load_transcript_for_review t r).1 r).segments).map
          (fun s => s.text.getD [])) := rfl
  rw [hfull, save_roundtrip_segments t r h, List.map_map]
  rfl

/-- Witness for the amended C1 at the concrete one-segment record. -/
theorem C1_roundtrip_amended_witness :
    (∀ s ∈ c1Rec.segments,
        '\n' ∉ s.speaker.getD ("Speaker".toList) ∧ '\n' ∉ s.text.getD []) ∧
    ((save_reviewed_transcript (load_transcript_for_review 0 c1Rec).1 c1Rec).segments =
      c1Rec.segments.map (fun s =>
        { s with
            speaker := some (tsContent (s.start.getD 0)),
            text := some (strip ('[' ::
              ((s.speaker.getD ("Speaker".toList)) ++ ']' :: ' ' :: (s.text.getD [])))) }) ∧
    (save_reviewed_transcript (load_transcript_for_review 0 c1Rec).1 c1Rec).full_transcript =
      List.intercalate [' ']
        (c1Rec.segments.map (fun s =>
          strip ('[' :: ((s.speaker.getD ("Speaker".toList)) ++ ']' :: ' ' :: (s.text.getD [])))))) :=
  ⟨by decide, C1_roundtrip_amended 0 c1Rec (by decide)⟩
